import Mathlib

/-!
Verification of the MAKER decomposition-and-voting pipeline.

Shallow embedding of the core components of the repository:
`VotingManager` (calculateOptimalK, vote, _calculateConfidence),
`CodeClusterer` (cluster, _greedyCluster, _buildSimilarityMatrix,
_jaccardSimilarity), `TaskDecomposer` (_validateSubtasks,
_buildDependencyGraph, _topologicalSort, completeSubtask) and the
per-subtask loop of `MicroagentExecutor.executeTask`.

Modelling conventions:
* JavaScript numbers are modelled as `ℚ` (similarities, confidences,
  reliabilities) and `ℤ`/`ℕ` (ids, counts, thresholds).  `Math.ceil ∘
  Math.log2` on `steps + 1` is `Nat.clog 2 (steps + 1)`.
* `Array.prototype.sort` is required by ECMAScript to be stable; a stable
  sort of a list under a consistent comparator is extensionally unique, so
  it is modelled by a stable insertion sort `sortBy` with the comparator
  translated into a boolean "a may come before b" relation.
* The acorn-based structural similarity of `CodeClusterer` calls the
  external source-text parser, which is outside this core; the clustering
  and voting functions are therefore parametrised by an abstract pairwise
  similarity `sim : α → α → ℚ` and an abstract validator
  `validate : α → Validation`, exactly as the control flow of the source
  uses them.
* The recursive depth-first `_topologicalSort` terminates in the source
  because of its visited set; it is modelled with an explicit fuel whose
  value `(univIds g).length + 1` strictly exceeds the depth the source
  recursion can reach (every nested frame consumes a distinct fresh id).
* `console.log` output, timestamps (`new Date().toISOString()`) and the
  `await`/Promise structure are effect-only and are elided.
-/

namespace Maker

/-- Stable insertion of `a` into `l`: `a` is placed before the first
element `b` with `le a b`.  Used to model the (stable) ECMAScript
`Array.prototype.sort`; `le a b` means "the comparator does not require
`b` strictly before `a`". -/
def insertBy {α : Type} (le : α → α → Bool) (a : α) : List α → List α
  | [] => [a]
  | b :: l => if le a b then a :: b :: l else b :: insertBy le a l

/-- Stable insertion sort modelling `Array.prototype.sort`. -/
def sortBy {α : Type} (le : α → α → Bool) : List α → List α
  | [] => []
  | a :: l => insertBy le a (sortBy le l)

/-- From `VotingManager.calculateOptimalK` (VotingManager.js):
`baseK = Math.ceil(Math.log2(problemSteps + 1))` (which for a natural
argument is `Nat.clog 2 (problemSteps + 1)`),
`reliabilityFactor = Math.max(1, 2 * (1 - baseReliability))`,
`optimalK = Math.ceil(baseK * reliabilityFactor)`, clamped into `[2, 10]`
by `Math.max(2, Math.min(10, optimalK))`. -/
def calculateOptimalK (problemSteps : ℕ) (baseReliability : ℚ) : ℤ :=
  let baseK : ℕ := Nat.clog 2 (problemSteps + 1)
  let reliabilityFactor : ℚ := max 1 (2 * (1 - baseReliability))
  let optimalK : ℤ := ⌈(baseK : ℚ) * reliabilityFactor⌉
  max 2 (min 10 optimalK)

/-- JavaScript `options.baseReliability || 0.7` used in
`MicroagentExecutor.executeTask`: an absent option or a falsy value
(`0`) falls back to the default `0.7`. -/
def resolveBaseReliability (baseReliability : Option ℚ) : ℚ :=
  match baseReliability with
  | none => 7/10
  | some b => if b = 0 then 7/10 else b

/-- Voting threshold actually passed to `VotingManager.vote` by
`MicroagentExecutor.executeTask`: Phase 2 computes
`k = calculateOptimalK(plan.complexity.totalSteps, options.baseReliability || 0.7)`
and the vote call receives `options.criticalTask ? k + 1 : k`. -/
def executorVoteK (totalSteps : ℕ) (baseReliability : Option ℚ)
    (criticalTask : Bool) : ℤ :=
  let k := calculateOptimalK totalSteps (resolveBaseReliability baseReliability)
  if criticalTask then k + 1 else k

/-- From `CodeClusterer._jaccardSimilarity`: `1.0` when both sets are
empty, otherwise intersection size over union size. -/
def jaccardSimilarity {α : Type} [DecidableEq α] (set1 set2 : Finset α) : ℚ :=
  if set1.card = 0 ∧ set2.card = 0 then 1
  else ((set1 ∩ set2).card : ℚ) / ((set1 ∪ set2).card : ℚ)

/-- Subtask status: created `pending`, flipped to `completed` by
`TaskDecomposer.completeSubtask`. -/
inductive SubtaskStatus : Type
  | pending
  | completed
deriving DecidableEq

/-- Subtask record as produced by `TaskDecomposer` decomposition.  The
fields not used by any verified claim (`action`, `type`, `target`,
`estimatedTokens`) are elided; `description` is kept to witness that the
JavaScript spread `{...task}` preserves the unrelated fields. -/
structure Subtask where
  id : ℤ
  description : String
  depends : List ℤ
  status : SubtaskStatus
deriving DecidableEq

/-- From `TaskDecomposer._validateSubtasks`: ids are reassigned to
`idx + 1`; each entry `d` of `depends` is replaced by
`subtasks.findIndex(st => st.id === d) + 1` when some original subtask
has id `d` (and kept as `d` otherwise), then the list is filtered to
`d > 0 && d <= subtasks.length`. -/
def validateSubtasks (subtasks : List Subtask) : List Subtask :=
  List.mapIdx (fun idx task =>
    { task with
      id := (idx : ℤ) + 1
      depends := (task.depends.map (fun d =>
          match subtasks.findIdx? (fun st => st.id == d) with
          | some oldIndex => (oldIndex : ℤ) + 1
          | none => d)).filter
        (fun d => decide (0 < d) && decide (d ≤ (subtasks.length : ℤ))) })
    subtasks

/-- From `TaskDecomposer.completeSubtask`: map over the subtasks,
flipping the status of the one with the given id to `completed`.  (The
`completedAt` ISO timestamp is an effect of the ambient clock and is
elided.) -/
def completeSubtask (subtasks : List Subtask) (taskId : ℤ) : List Subtask :=
  subtasks.map (fun task =>
    if task.id == taskId then { task with status := .completed } else task)

/-- Abstract outcome of one subtask iteration of
`MicroagentExecutor.executeTask`: either some call inside the `try`
block before the reliability branch threw (`voteThrew`), or the vote
returned with the given `reliable` flag and the subsequent
`_applyResult` call threw or not (`applyThrew`). -/
inductive SubtaskOutcome : Type
  | voteThrew
  | voteOk (reliable : Bool) (applyThrew : Bool)
deriving DecidableEq

/-- Status recorded in the execution log entry of one subtask. -/
inductive LogStatus : Type
  | success
  | warning
  | error
deriving DecidableEq

/-- Result of one iteration of the subtask loop: the updated plan
subtasks, the status of the appended log entry, and whether the whole
execution aborts (`stopOnError` rethrow). -/
structure SubtaskStepResult where
  subtasks : List Subtask
  logStatus : LogStatus
  aborted : Bool
deriving DecidableEq

/-- One iteration of the subtask loop in `MicroagentExecutor.executeTask`:
inside `try`, a reliable result is applied and logged `success`; an
unreliable result throws when `options.requireHighConfidence` is set and
is otherwise applied and logged `warning`; after either branch
`completeSubtask` marks the subtask completed.  Any thrown error is
caught, logged `error` (leaving the subtasks unchanged, since the
`completeSubtask` call sits inside the `try` block), and rethrown only
when `options.stopOnError` is set. -/
def executeSubtaskStep (subtasks : List Subtask) (taskId : ℤ)
    (outcome : SubtaskOutcome) (requireHighConfidence stopOnError : Bool) :
    SubtaskStepResult :=
  match outcome with
  | .voteThrew => ⟨subtasks, .error, stopOnError⟩
  | .voteOk reliable applyThrew =>
    if reliable then
      if applyThrew then ⟨subtasks, .error, stopOnError⟩
      else ⟨completeSubtask subtasks taskId, .success, false⟩
    else
      if requireHighConfidence then ⟨subtasks, .error, stopOnError⟩
      else if applyThrew then ⟨subtasks, .error, stopOnError⟩
      else ⟨completeSubtask subtasks taskId, .warning, false⟩

/-- Cluster member (`{code, index, similarity}` in
`CodeClusterer._greedyCluster`). -/
structure ClusterMember (α : Type) where
  code : α
  index : ℕ
  similarity : ℚ

/-- Cluster (`{representative, members, size, avgSimilarity}`). -/
structure Cluster (α : Type) where
  representative : α
  members : List (ClusterMember α)
  size : ℕ
  avgSimilarity : ℚ

instance {α : Type} [Inhabited α] : Inhabited (Cluster α) :=
  ⟨⟨default, [], 0, 0⟩⟩

/-- Entry `(i, j)` of the symmetric similarity matrix built by
`CodeClusterer._buildSimilarityMatrix`: `1.0` on the diagonal and the
pairwise similarity (computed once for `i < j` and mirrored)
elsewhere. -/
def simMatrix {α : Type} [Inhabited α] (sim : α → α → ℚ) (responses : List α)
    (i j : ℕ) : ℚ :=
  if i = j then 1
  else if i < j then sim (responses.getD i default) (responses.getD j default)
  else sim (responses.getD j default) (responses.getD i default)

/-- Average of row `i` of the similarity matrix, the `avgSimilarity`
ranking key of the greedy pass of `_greedyCluster`. -/
def avgRowSim {α : Type} [Inhabited α] (sim : α → α → ℚ) (responses : List α)
    (i : ℕ) : ℚ :=
  ((List.range responses.length).map (fun j => simMatrix sim responses i j)).sum
    / (responses.length : ℚ)

/-- Body of the inner scan of `_greedyCluster`: for index `j`, skip it if
already assigned, otherwise absorb it into the current cluster (state:
assigned set, member list, size counter) when its similarity to the
representative reaches the threshold. -/
def absorbStep {α : Type} [Inhabited α] (sim : α → α → ℚ) (responses : List α)
    (threshold : ℚ) (rep : ℕ)
    (st : List ℕ × List (ClusterMember α) × ℕ) (j : ℕ) :
    List ℕ × List (ClusterMember α) × ℕ :=
  if j ∈ st.1 then st
  else if threshold ≤ simMatrix sim responses rep j then
    (j :: st.1,
     st.2.1 ++ [⟨responses.getD j default, j, simMatrix sim responses rep j⟩],
     st.2.2 + 1)
  else st

/-- Body of the outer loop of `_greedyCluster`: skip an already assigned
candidate; otherwise open a new cluster with it as representative
(member similarity `1.0`), scan all indices for unassigned absorbable
members, compute the cluster's average similarity, and append the
cluster. -/
def greedyStep {α : Type} [Inhabited α] (sim : α → α → ℚ) (responses : List α)
    (threshold : ℚ) (st : List ℕ × List (Cluster α)) (cand : ℕ × ℚ) :
    List ℕ × List (Cluster α) :=
  if cand.1 ∈ st.1 then st
  else
    let st0 : List ℕ × List (ClusterMember α) × ℕ :=
      (cand.1 :: st.1, [⟨responses.getD cand.1 default, cand.1, 1⟩], 1)
    let r := (List.range responses.length).foldl
      (absorbStep sim responses threshold cand.1) st0
    (r.1, st.2 ++
      [⟨responses.getD cand.1 default, r.2.1, r.2.2,
        (r.2.1.map (fun m => m.similarity)).sum / (r.2.2 : ℚ)⟩])

/-- `CodeClusterer._greedyCluster`: candidates (index, average row
similarity) sorted by descending average similarity, processed greedily,
and the resulting clusters sorted by descending size. -/
def greedyCluster {α : Type} [Inhabited α] (sim : α → α → ℚ)
    (responses : List α) (threshold : ℚ) : List (Cluster α) :=
  let candidates := sortBy (fun a b => decide (b.2 ≤ a.2))
    ((List.range responses.length).map
      (fun i => (i, avgRowSim sim responses i)))
  let r := candidates.foldl (greedyStep sim responses threshold) ([], [])
  sortBy (fun a b => decide (b.size ≤ a.size)) r.2

/-- `CodeClusterer.cluster`: empty input gives no clusters, a single
response a singleton cluster, otherwise the greedy clustering pass. -/
def cluster {α : Type} [Inhabited α] (sim : α → α → ℚ) (responses : List α)
    (similarityThreshold : ℚ) : List (Cluster α) :=
  match responses with
  | [] => []
  | [r] => [⟨r, [⟨r, 0, 1⟩], 1, 1⟩]
  | _ => greedyCluster sim responses similarityThreshold

/-- Concatenated member indices of a cluster list (used to state the
partition invariant). -/
def clusterIndices {α : Type} (cs : List (Cluster α)) : List ℕ :=
  cs.flatMap (fun c => c.members.map (fun m => m.index))

/-- Largest vote count (= cluster size) in a cluster list, `0` when
empty; the runner-up vote count of a vote round is `maxVotes` of the
non-winning clusters. -/
def maxVotes {α : Type} (cs : List (Cluster α)) : ℕ :=
  (cs.map (fun c => c.size)).foldr max 0

/-- Validation result as consumed by `VotingManager.vote` (the `flags`
and `summary` fields of `ResponseValidator.validate` are used only for
logging there and are elided). -/
structure Validation where
  valid : Bool
  confidence : ℚ

/-- `votingStats` object of a `VotingManager.vote` result.  Fields that
are absent from a particular return path of the source (`winnerVotes`,
`runnerUpVotes`, `margin` in the degraded paths) are `Option`s. -/
structure VotingStats where
  totalCandidates : ℕ
  validCandidates : ℕ
  clusterCount : ℕ
  winnerVotes : Option ℕ
  runnerUpVotes : Option ℕ
  margin : Option ℤ
  votesNeeded : ℕ
  reliable : Bool

/-- Result object of `VotingManager.vote`. -/
structure VoteResult (α : Type) where
  winner : α
  confidence : ℚ
  votingStats : VotingStats
  clusters : Option (List (Cluster α))
  warning : Option String

/-- JavaScript `options.k || this.defaultK` in `VotingManager.vote`:
absent or falsy (`0`) falls back to the default `3`. -/
def resolveK (kOpt : Option ℕ) : ℕ :=
  match kOpt with
  | none => 3
  | some 0 => 3
  | some k => k

/-- Red-flag filtering step of `VotingManager.vote`: candidates whose
validation has `valid = true`. -/
def validCandidatesOf {α : Type} (validate : α → Validation)
    (candidates : List α) : List α :=
  candidates.filter (fun c => (validate c).valid)

/-- From `VotingManager._calculateConfidence`:
`0.5 * min(1, margin/k) + 0.3 * winner.avgSimilarity + 0.2 * min(1, totalValid/5)`,
clamped into `[0.1, 1.0]`. -/
def calculateConfidence (winnerVotes runnerUpVotes : ℕ) (winnerAvgSim : ℚ)
    (k : ℕ) (totalValid : ℕ) : ℚ :=
  let margin : ℚ := (winnerVotes : ℚ) - (runnerUpVotes : ℚ)
  let marginConfidence := min 1 (margin / (k : ℚ))
  let clusterConfidence := winnerAvgSim
  let sampleConfidence := min 1 ((totalValid : ℚ) / 5)
  max (1/10) (min 1
    (1/2 * marginConfidence + 3/10 * clusterConfidence + 1/5 * sampleConfidence))

/-- `VotingManager.vote`, parametrised by the validator and the pairwise
similarity and taking the generated candidate contents as input
(candidate generation itself is provider I/O).  Control flow of the
source: throw if no candidates were generated; red-flag filter; if no
candidate is valid return the best invalid one (sorted by descending
validator confidence) with fixed confidence `0.3`; if exactly one is
valid return it directly; otherwise cluster the valid contents, rank
clusters by descending votes (= size), and declare the result reliable
exactly when `margin = winner.votes - runnerUp.votes` (runner-up votes
`0` when there is no second cluster) reaches `k`. -/
def vote {α : Type} [Inhabited α] (validate : α → Validation)
    (sim : α → α → ℚ) (similarityThreshold : ℚ) (candidates : List α)
    (kOpt : Option ℕ) : Except String (VoteResult α) :=
  let k := resolveK kOpt
  if candidates.length = 0 then
    .error "Failed to generate any candidates"
  else
    let validCandidates := validCandidatesOf validate candidates
    if validCandidates.length = 0 then
      let sorted := sortBy
        (fun a b => decide ((validate b).confidence ≤ (validate a).confidence))
        candidates
      .ok
        { winner := sorted.getD 0 default
          confidence := 3/10
          votingStats :=
            ⟨candidates.length, 0, 0, none, none, none, k, false⟩
          clusters := none
          warning :=
            some "All candidates failed validation - returning least bad option" }
    else if validCandidates.length = 1 then
      .ok
        { winner := validCandidates.getD 0 default
          confidence := (validate (validCandidates.getD 0 default)).confidence
          votingStats :=
            ⟨candidates.length, 1, 1, none, none, none, k, false⟩
          clusters := none
          warning := some "Only one valid candidate - no voting performed" }
    else
      let clusters := cluster sim validCandidates similarityThreshold
      let votes := sortBy (fun a b => decide (b.size ≤ a.size)) clusters
      let winner := votes.getD 0 default
      let runnerUpVotes : ℕ := ((votes.get? 1).map (fun c => c.size)).getD 0
      let margin : ℤ := (winner.size : ℤ) - (runnerUpVotes : ℤ)
      let hasWinner := decide ((k : ℤ) ≤ margin)
      .ok
        { winner := winner.representative
          confidence := calculateConfidence winner.size runnerUpVotes
            winner.avgSimilarity k validCandidates.length
          votingStats :=
            ⟨candidates.length, validCandidates.length, clusters.length,
             some winner.size, some runnerUpVotes, some margin, k, hasWinner⟩
          clusters := some clusters
          warning :=
            if hasWinner then none
            else some ("Margin (" ++ toString margin ++ ") below threshold (k="
              ++ toString k ++ ") - result may be unreliable") }

/-- Node of the dependency graph built by
`TaskDecomposer._buildDependencyGraph` (`requiredBy` reverse edges are
not consulted by `_topologicalSort` and are elided). -/
structure GraphNode where
  id : ℤ
  dependsOn : List ℤ
deriving DecidableEq

/-- Dependency graph: node records keyed by `id`, in key iteration
order.  A graph built from a (validated) plan has ids `1..N` in
ascending order, matching the ascending integer-key iteration order of
a JavaScript object. -/
abbrev DepGraph := List GraphNode

/-- `graph[nodeId]` lookup. -/
def lookupNode (g : DepGraph) (i : ℤ) : Option GraphNode :=
  g.find? (fun n => n.id == i)

/-- `Object.keys(graph)` in iteration order. -/
def graphKeys (g : DepGraph) : List ℤ :=
  g.map (fun n => n.id)

/-- All ids the recursive `visit` of `_topologicalSort` can ever be
called on: the keys plus every listed dependency id. -/
def univIds (g : DepGraph) : List ℤ :=
  graphKeys g ++ g.flatMap (fun n => n.dependsOn)

/-- Recursive `visit` of `TaskDecomposer._topologicalSort`, on state
(visited set, output order): return if visited; mark visited; if the id
is a key, visit the node's dependencies and then emit the id.  The
source recursion terminates because every nested frame consumes a fresh
unvisited id; the fuel is an upper bound on that recursion depth and is
proved never to be exhausted when at least `(univIds g).length + 1`. -/
def visitFuel (g : DepGraph) : ℕ → ℤ → (List ℤ × List ℤ) → (List ℤ × List ℤ)
  | 0, _, st => st
  | fuel + 1, nodeId, st =>
    if nodeId ∈ st.1 then st
    else
      match lookupNode g nodeId with
      | none => (nodeId :: st.1, st.2)
      | some node =>
        let st2 := node.dependsOn.foldl
          (fun acc d => visitFuel g fuel d acc) (nodeId :: st.1, st.2)
        (st2.1, st2.2 ++ [nodeId])

/-- `TaskDecomposer._topologicalSort`: visit every key of the graph in
iteration order with a shared visited set, returning the emission
order. -/
def topologicalSort (g : DepGraph) : List ℤ :=
  ((graphKeys g).foldl
    (fun st i => visitFuel g ((univIds g).length + 1) i st) ([], [])).2

/-- From `TaskDecomposer._buildDependencyGraph`: one node per subtask,
keyed by its id, with `dependsOn := task.depends` (the object keys of a
normalized plan are `1..N` and iterate in ascending numeric order, i.e.
in subtask list order; the `requiredBy` reverse edges are not consulted
by `_topologicalSort` and are elided). -/
def buildDependencyGraph (subtasks : List Subtask) : DepGraph :=
  subtasks.map (fun t => ⟨t.id, t.depends⟩)

/-- Dependency edge of a graph: `u` depends on `d`. -/
def edgeRel (g : DepGraph) (u d : ℤ) : Prop :=
  ∃ n ∈ g, n.id = u ∧ d ∈ n.dependsOn

/-- Acyclicity: no id transitively depends on itself. -/
def AcyclicDep (g : DepGraph) : Prop :=
  ∀ u, ¬ Relation.TransGen (edgeRel g) u u

/-- Dependency-closedness: every listed dependency id is a key.  Holds
for every graph `_buildDependencyGraph` builds from normalized subtasks,
whose `depends` entries lie in `1..N`. -/
def DepClosed (g : DepGraph) : Prop :=
  ∀ n ∈ g, ∀ d ∈ n.dependsOn, d ∈ graphKeys g

/-- All ids the traversal can touch, as a finite set (used to measure the
remaining fuel of `visitFuel`). -/
def univFinset (g : DepGraph) : Finset ℤ :=
  (univIds g).toFinset

/-- Number of touchable ids not yet in the visited set: the quantity that
strictly decreases whenever `visitFuel` recurses, bounding the recursion
depth of the source's `visit`. -/
def unvisitedCard (g : DepGraph) (visited : List ℤ) : ℕ :=
  ((univFinset g).filter (fun x => x ∉ visited)).card

/-- Shape specification of a traversal step on (visited, order) states:
it only extends the visited set (by ids not previously visited) and only
appends to the order, the appended order entries are exactly the newly
visited keys, and no entry is appended twice. -/
def SpecStep (g : DepGraph) (f : List ℤ × List ℤ → List ℤ × List ℤ) : Prop :=
  ∀ st : List ℤ × List ℤ, ∃ Δv Δo : List ℤ,
    f st = (Δv ++ st.1, st.2 ++ Δo) ∧
    Δo.Nodup ∧
    (∀ x ∈ Δv, x ∉ st.1) ∧
    (∀ x, x ∈ Δo ↔ x ∈ Δv ∧ x ∈ graphKeys g)

/-- Depth-first-search invariant of a (visited, order) state relative to
the set `grey` of ids whose visit is still in progress: the order is a
subset of the visited set, every visited key not in progress has been
emitted, no emitted id depends on a later-emitted one, and the emitted
ids are closed under dependencies. -/
def OrderInv (g : DepGraph) (grey : List ℤ) (st : List ℤ × List ℤ) : Prop :=
  (∀ x ∈ st.2, x ∈ st.1) ∧
  (∀ x ∈ st.1, x ∉ grey → x ∈ graphKeys g → x ∈ st.2) ∧
  st.2.Pairwise (fun a b => ¬ edgeRel g a b) ∧
  (∀ u ∈ st.2, ∀ d, edgeRel g u d → d ∈ st.2)

theorem insertBy_perm {α : Type} (le : α → α → Bool) (a : α) (l : List α) :
    (insertBy le a l).Perm (a :: l) := by
  induction l with
  | nil => exact List.Perm.refl _
  | cons b bs ih =>
    simp only [insertBy]
    split
    · exact List.Perm.refl _
    · exact (List.Perm.cons b ih).trans (List.Perm.swap a b bs)

theorem sortBy_perm {α : Type} (le : α → α → Bool) (l : List α) :
    (sortBy le l).Perm l := by
  induction l with
  | nil => exact List.Perm.refl _
  | cons a l ih => exact (insertBy_perm le a (sortBy le l)).trans (ih.cons a)

theorem mem_insertBy {α : Type} (le : α → α → Bool) (a x : α) (l : List α) :
    x ∈ insertBy le a l ↔ x = a ∨ x ∈ l := by
  rw [(insertBy_perm le a l).mem_iff, List.mem_cons]

theorem insertBy_pairwise {α : Type} (le : α → α → Bool)
    (htrans : ∀ a b c, le a b = true → le b c = true → le a c = true)
    (htot : ∀ a b, le a b = true ∨ le b a = true)
    (a : α) (l : List α) (h : l.Pairwise (fun x y => le x y = true)) :
    (insertBy le a l).Pairwise (fun x y => le x y = true) := by
  induction l with
  | nil => simp [insertBy]
  | cons b bs ih =>
    rcases List.pairwise_cons.mp h with ⟨hb, hbs⟩
    simp only [insertBy]
    split
    · rename_i hab
      refine List.pairwise_cons.mpr ⟨?_, h⟩
      intro x hx
      rcases List.mem_cons.mp hx with rfl | hx
      · exact hab
      · exact htrans a b x hab (hb x hx)
    · rename_i hab
      refine List.pairwise_cons.mpr ⟨?_, ih hbs⟩
      intro x hx
      rcases (mem_insertBy le a x bs).mp hx with rfl | hx
      · rcases htot x b with hxb | hbx
        · exact absurd hxb hab
        · exact hbx
      · exact hb x hx

theorem sortBy_pairwise {α : Type} (le : α → α → Bool)
    (htrans : ∀ a b c, le a b = true → le b c = true → le a c = true)
    (htot : ∀ a b, le a b = true ∨ le b a = true) (l : List α) :
    (sortBy le l).Pairwise (fun x y => le x y = true) := by
  induction l with
  | nil => simp [sortBy]
  | cons a l ih => exact insertBy_pairwise le htrans htot a (sortBy le l) ih

/-- C3: for every fixed `baseReliability` in `[0,1]`,
`VotingManager.calculateOptimalK` always returns a value in `[2,10]` and
is monotonically non-decreasing in `steps`. -/
theorem calculateOptimalK_range_and_mono (baseReliability : ℚ)
    (hbr0 : 0 ≤ baseReliability) (hbr1 : baseReliability ≤ 1) :
    (∀ steps : ℕ, 2 ≤ calculateOptimalK steps baseReliability ∧
      calculateOptimalK steps baseReliability ≤ 10) ∧
    (∀ s1 s2 : ℕ, s1 ≤ s2 →
      calculateOptimalK s1 baseReliability ≤ calculateOptimalK s2 baseReliability) := by
  constructor
  · intro steps
    unfold calculateOptimalK
    exact ⟨le_max_left _ _, max_le (by norm_num) (min_le_left _ _)⟩
  · intro s1 s2 h12
    unfold calculateOptimalK
    have hfac : (0 : ℚ) ≤ max 1 (2 * (1 - baseReliability)) :=
      le_trans zero_le_one (le_max_left _ _)
    have hclog : Nat.clog 2 (s1 + 1) ≤ Nat.clog 2 (s2 + 1) :=
      Nat.clog_mono_right 2 (by omega)
    have hmul : ((Nat.clog 2 (s1 + 1) : ℚ)) * max 1 (2 * (1 - baseReliability))
        ≤ ((Nat.clog 2 (s2 + 1) : ℚ)) * max 1 (2 * (1 - baseReliability)) :=
      mul_le_mul_of_nonneg_right (by exact_mod_cast hclog) hfac
    exact max_le_max le_rfl (min_le_min le_rfl (Int.ceil_le_ceil hmul))

theorem calculateOptimalK_range_and_mono_witness :
    (0 : ℚ) ≤ 7/10 ∧ (7/10 : ℚ) ≤ 1 ∧ (3 : ℕ) ≤ 5 ∧
    (2 ≤ calculateOptimalK 3 (7/10) ∧ calculateOptimalK 3 (7/10) ≤ 10) ∧
    calculateOptimalK 3 (7/10) ≤ calculateOptimalK 5 (7/10) :=
  ⟨by norm_num, by norm_num, by norm_num,
   (calculateOptimalK_range_and_mono (7/10) (by norm_num) (by norm_num)).1 3,
   (calculateOptimalK_range_and_mono (7/10) (by norm_num) (by norm_num)).2 3 5
     (by norm_num)⟩

/-- C9: the Jaccard similarity of `CodeClusterer._jaccardSimilarity` is
symmetric, lies in `[0,1]`, equals `1` on identical non-empty sets and
`0` on disjoint non-empty sets. -/
theorem jaccardSimilarity_props {α : Type} [DecidableEq α] :
    (∀ s t : Finset α, jaccardSimilarity s t = jaccardSimilarity t s) ∧
    (∀ s t : Finset α,
      0 ≤ jaccardSimilarity s t ∧ jaccardSimilarity s t ≤ 1) ∧
    (∀ s : Finset α, s.Nonempty → jaccardSimilarity s s = 1) ∧
    (∀ s t : Finset α, s.Nonempty → t.Nonempty → s ∩ t = ∅ →
      jaccardSimilarity s t = 0) := by
  have hunion : ∀ s t : Finset α, ¬ (s.card = 0 ∧ t.card = 0) →
      (0 : ℚ) < ((s ∪ t).card : ℚ) := by
    intro s t h
    have : (s ∪ t).Nonempty := by
      rcases not_and_or.mp h with hs | ht
      · exact (Finset.card_pos.mp (Nat.pos_of_ne_zero hs)).mono
          Finset.subset_union_left
      · exact (Finset.card_pos.mp (Nat.pos_of_ne_zero ht)).mono
          Finset.subset_union_right
    exact_mod_cast Finset.card_pos.mpr this
  refine ⟨?_, ?_, ?_, ?_⟩
  · intro s t
    unfold jaccardSimilarity
    rw [Finset.inter_comm, Finset.union_comm]
    by_cases h : s.card = 0 ∧ t.card = 0
    · rw [if_pos h, if_pos ⟨h.2, h.1⟩]
    · rw [if_neg h, if_neg (fun hh => h ⟨hh.2, hh.1⟩)]
  · intro s t
    unfold jaccardSimilarity
    split
    · norm_num
    · rename_i h
      constructor
      · exact div_nonneg (by positivity) (by positivity)
      · rw [div_le_one (hunion s t h)]
        exact_mod_cast Finset.card_le_card
          ((Finset.inter_subset_left).trans Finset.subset_union_left)
  · intro s hs
    unfold jaccardSimilarity
    rw [if_neg (fun hh => (Finset.card_pos.mpr hs).ne (hh.1.symm))]
    rw [Finset.inter_self, Finset.union_self]
    exact div_self (by exact_mod_cast (Finset.card_pos.mpr hs).ne')
  · intro s t hs ht hdisj
    unfold jaccardSimilarity
    rw [if_neg (fun hh => (Finset.card_pos.mpr hs).ne (hh.1.symm))]
    rw [hdisj]
    simp

/-- C5 counterexample: on input `[{id 1, depends [2]}, {id 2, depends []}]`
the normalization of `TaskDecomposer._validateSubtasks` keeps the forward
dependency `2` of the first subtask (its filter only checks the range
`1..N`), so the claim that every surviving depends entry references a
prior-or-equal subtask is false. -/
theorem validateSubtasks_counterexample :
    ¬ (∀ t ∈ validateSubtasks
        [⟨1, "a", [2], .pending⟩, ⟨2, "b", [], .pending⟩],
        ∀ d ∈ t.depends, d ≤ t.id) := by decide

theorem validateSubtasks_shape (subtasks : List Subtask) :
    (validateSubtasks subtasks).map (fun t => t.id)
        = (List.range subtasks.length).map (fun i : ℕ => (i : ℤ) + 1) ∧
    ∀ t ∈ validateSubtasks subtasks, ∀ d ∈ t.depends,
      1 ≤ d ∧ d ≤ (subtasks.length : ℤ) := by
  constructor
  · apply List.ext_getElem
    · simp only [validateSubtasks, List.length_map, List.length_mapIdx,
        List.length_range]
    · intro i h1 h2
      simp only [validateSubtasks, List.getElem_map, List.getElem_mapIdx,
        List.getElem_range]
  · intro t ht d hd
    rw [validateSubtasks, List.mem_mapIdx] at ht
    obtain ⟨i, hi, hfeq⟩ := ht
    rw [← hfeq] at hd
    simp only [List.mem_filter, Bool.and_eq_true, decide_eq_true_eq] at hd
    omega

/-- C5 (amended): `_validateSubtasks` reassigns ids to exactly `1..N` in
output order, and every surviving depends entry lies in the valid range
`1..N`; entries outside that range are dropped, but forward and self
references inside the range are retained. -/
theorem validateSubtasks_ids_and_range (subtasks : List Subtask) :
    (validateSubtasks subtasks).map (fun t => t.id)
        = (List.range subtasks.length).map (fun i : ℕ => (i : ℤ) + 1) ∧
    ∀ t ∈ validateSubtasks subtasks, ∀ d ∈ t.depends,
      1 ≤ d ∧ d ≤ (subtasks.length : ℤ) :=
  validateSubtasks_shape subtasks

/-- Every dependency graph `_buildDependencyGraph` builds from normalized
subtasks is wellformed: its keys `1..N` are distinct and every listed
dependency id is a key — the hypotheses under which
`_topologicalSort` is proved correct for acyclic plans. -/
theorem buildDependencyGraph_wellformed (subtasks : List Subtask) :
    (graphKeys (buildDependencyGraph (validateSubtasks subtasks))).Nodup ∧
    DepClosed (buildDependencyGraph (validateSubtasks subtasks)) := by
  obtain ⟨hids, hdeps⟩ := validateSubtasks_shape subtasks
  have hkeys : graphKeys (buildDependencyGraph (validateSubtasks subtasks))
      = (validateSubtasks subtasks).map (fun t => t.id) := by
    rw [graphKeys, buildDependencyGraph, List.map_map]
    rfl
  constructor
  · rw [hkeys, hids]
    apply List.Nodup.map
    · intro a b hab
      simp only at hab
      omega
    · exact List.nodup_range _
  · intro n hn d hd
    rw [buildDependencyGraph, List.mem_map] at hn
    obtain ⟨t, ht, hteq⟩ := hn
    rw [← hteq] at hd
    have hrange := hdeps t ht d hd
    rw [hkeys, hids, List.mem_map]
    refine ⟨(d - 1).toNat, ?_, ?_⟩
    · rw [List.mem_range]
      omega
    · omega

/-- C4 counterexample: when the subtask body throws (here: the vote call)
and `stopOnError` is false, the caught error is logged and execution
continues, but the subtask is NOT marked completed — it stays `pending`,
because the `completeSubtask` call sits inside the `try` block. -/
theorem executeSubtaskStep_counterexample :
    (executeSubtaskStep [⟨1, "s", [], .pending⟩] 1 .voteThrew false false).logStatus
        = .error ∧
    (executeSubtaskStep [⟨1, "s", [], .pending⟩] 1 .voteThrew false false).aborted
        = false ∧
    ¬ (∀ t ∈ (executeSubtaskStep [⟨1, "s", [], .pending⟩] 1
        .voteThrew false false).subtasks, t.id = 1 → t.status = .completed) := by
  refine ⟨rfl, rfl, ?_⟩
  decide

/-- C4 (amended): one iteration of the `executeTask` subtask loop marks
the subtask completed in the success and warning outcomes, but in the
error outcome (caught exception) it leaves the plan subtasks — and hence
the subtask's `pending` status — unchanged; `completeSubtask` itself
flips the matching subtask to `completed`. -/
theorem executeSubtaskStep_completion (subtasks : List Subtask) (taskId : ℤ)
    (outcome : SubtaskOutcome) (requireHighConfidence stopOnError : Bool) :
    ((executeSubtaskStep subtasks taskId outcome requireHighConfidence
        stopOnError).logStatus = .success ∨
     (executeSubtaskStep subtasks taskId outcome requireHighConfidence
        stopOnError).logStatus = .warning →
      (executeSubtaskStep subtasks taskId outcome requireHighConfidence
        stopOnError).subtasks = completeSubtask subtasks taskId) ∧
    ((executeSubtaskStep subtasks taskId outcome requireHighConfidence
        stopOnError).logStatus = .error →
      (executeSubtaskStep subtasks taskId outcome requireHighConfidence
        stopOnError).subtasks = subtasks) ∧
    (∀ t ∈ completeSubtask subtasks taskId, t.id = taskId →
      t.status = .completed) := by
  refine ⟨?_, ?_, ?_⟩
  · rcases outcome with _ | ⟨reliable, applyThrew⟩
    · intro h
      rcases h with h | h <;> exact absurd h (by simp [executeSubtaskStep])
    · rcases reliable <;> rcases applyThrew <;>
        rcases requireHighConfidence <;> intro h <;>
        simp_all [executeSubtaskStep]
  · rcases outcome with _ | ⟨reliable, applyThrew⟩
    · intro _; rfl
    · rcases reliable <;> rcases applyThrew <;>
        rcases requireHighConfidence <;> intro h <;>
        simp_all [executeSubtaskStep]
  · intro t ht hid
    rw [completeSubtask, List.mem_map] at ht
    obtain ⟨task, _, hteq⟩ := ht
    by_cases hmatch : task.id == taskId
    · rw [if_pos hmatch] at hteq
      rw [← hteq]
    · rw [if_neg hmatch] at hteq
      rw [← hteq] at hid
      exact absurd hid (by simpa using hmatch)

theorem executeSubtaskStep_completion_witness :
    (executeSubtaskStep [⟨1, "s", [], .pending⟩] 1 (.voteOk true false)
        false false).subtasks = completeSubtask [⟨1, "s", [], .pending⟩] 1 ∧
    (executeSubtaskStep [⟨1, "s", [], .pending⟩] 1 .voteThrew
        false true).subtasks = [⟨1, "s", [], .pending⟩] :=
  ⟨(executeSubtaskStep_completion [⟨1, "s", [], .pending⟩] 1 (.voteOk true false)
      false false).1 (Or.inl rfl),
   (executeSubtaskStep_completion [⟨1, "s", [], .pending⟩] 1 .voteThrew
      false true).2.1 rfl⟩

theorem clog_two_eleven : Nat.clog 2 11 = 4 := by
  have h1 := (Nat.le_pow_iff_clog_le (b := 2) (by norm_num)).mp
    (show 11 ≤ 2 ^ 4 by norm_num)
  have h2 := (Nat.pow_lt_iff_lt_clog (b := 2) (by norm_num)).mp
    (show 2 ^ 3 < 11 by norm_num)
  omega

theorem calculateOptimalK_ten : calculateOptimalK 10 (7/10) = 4 := by
  unfold calculateOptimalK
  rw [show (10 : ℕ) + 1 = 11 from rfl, clog_two_eleven]
  rw [show max (1 : ℚ) (2 * (1 - 7/10)) = 1 from max_eq_left (by norm_num)]
  norm_num

/-- C8 counterexample: at `totalSteps = 10`, `baseReliability = 0.7` the
base voting threshold is `4`, and with `criticalTask` set the threshold
passed to `VotingManager.vote` is `5` — the base plus one, not plus two:
the Phase 2 computation of `k` applies no `criticalTask` increment, only
the vote call does. -/
theorem executorVoteK_counterexample :
    executorVoteK 10 (some (7/10)) true = 5 ∧
    calculateOptimalK 10 (7/10) = 4 ∧
    executorVoteK 10 (some (7/10)) true ≠ calculateOptimalK 10 (7/10) + 2 := by
  have hres : resolveBaseReliability (some (7/10)) = 7/10 := by
    rw [resolveBaseReliability, if_neg (by norm_num)]
  have h1 : executorVoteK 10 (some (7/10)) true = 5 := by
    rw [executorVoteK, hres, if_pos rfl, calculateOptimalK_ten]
    decide
  refine ⟨h1, calculateOptimalK_ten, ?_⟩
  rw [h1, calculateOptimalK_ten]
  norm_num

/-- C8 (amended): the voting threshold `MicroagentExecutor.executeTask`
passes to `VotingManager.vote` is the Phase-2 base
`calculateOptimalK(totalSteps, baseReliability || 0.7)` plus exactly one
when `options.criticalTask` is set (the bump happens only at the vote
call), and the base itself when it is unset. -/
theorem executorVoteK_spec (totalSteps : ℕ) (baseReliability : Option ℚ) :
    executorVoteK totalSteps baseReliability true
        = calculateOptimalK totalSteps (resolveBaseReliability baseReliability)
          + 1 ∧
    executorVoteK totalSteps baseReliability false
        = calculateOptimalK totalSteps (resolveBaseReliability baseReliability) :=
  ⟨rfl, rfl⟩

theorem absorb_fold_spec {α : Type} [Inhabited α] (sim : α → α → ℚ)
    (responses : List α) (threshold : ℚ) (rep : ℕ) (js : List ℕ) :
    ∀ st : List ℕ × List (ClusterMember α) × ℕ,
    ∃ Δ : List (ClusterMember α),
      js.foldl (absorbStep sim responses threshold rep) st
        = ((Δ.map (fun m => m.index)).reverse ++ st.1,
           st.2.1 ++ Δ, st.2.2 + Δ.length) ∧
      (Δ.map (fun m => m.index)).Nodup ∧
      (∀ x ∈ Δ.map (fun m => m.index), x ∈ js ∧ x ∉ st.1) := by
  induction js with
  | nil =>
    intro st
    exact ⟨[], by simp, by simp, by simp⟩
  | cons j js ih =>
    intro st
    by_cases hj : j ∈ st.1
    · obtain ⟨Δ, heq, hnd, hmem⟩ := ih st
      refine ⟨Δ, ?_, hnd, fun x hx =>
        ⟨List.mem_cons_of_mem _ (hmem x hx).1, (hmem x hx).2⟩⟩
      rw [List.foldl_cons]
      have hstep : absorbStep sim responses threshold rep st j = st := by
        simp [absorbStep, hj]
      rw [hstep, heq]
    · by_cases hsim : threshold ≤ simMatrix sim responses rep j
      · obtain ⟨Δ', heq, hnd, hmem⟩ := ih
          (j :: st.1,
           st.2.1 ++ [⟨responses.getD j default, j, simMatrix sim responses rep j⟩],
           st.2.2 + 1)
        refine ⟨⟨responses.getD j default, j, simMatrix sim responses rep j⟩ :: Δ',
          ?_, ?_, ?_⟩
        · rw [List.foldl_cons]
          have hstep : absorbStep sim responses threshold rep st j
              = (j :: st.1,
                 st.2.1 ++ [⟨responses.getD j default, j,
                   simMatrix sim responses rep j⟩],
                 st.2.2 + 1) := by
            simp [absorbStep, hj, hsim]
          rw [hstep, heq]
          simp [List.append_assoc, Nat.add_comm, Nat.add_assoc, Nat.add_left_comm]
        · rw [List.map_cons, List.nodup_cons]
          refine ⟨fun hmemj => ?_, hnd⟩
          exact (hmem j hmemj).2 (List.mem_cons_self j st.1)
        · intro x hx
          rw [List.map_cons, List.mem_cons] at hx
          rcases hx with rfl | hx
          · exact ⟨List.mem_cons_self _ _, hj⟩
          · exact ⟨List.mem_cons_of_mem _ (hmem x hx).1,
              fun hxst => (hmem x hx).2 (List.mem_cons_of_mem _ hxst)⟩
      · obtain ⟨Δ, heq, hnd, hmem⟩ := ih st
        refine ⟨Δ, ?_, hnd, fun x hx =>
          ⟨List.mem_cons_of_mem _ (hmem x hx).1, (hmem x hx).2⟩⟩
        rw [List.foldl_cons]
        have hstep : absorbStep sim responses threshold rep st j = st := by
          simp [absorbStep, hj, hsim]
        rw [hstep, heq]

theorem clusterIndices_append {α : Type} (l1 l2 : List (Cluster α)) :
    clusterIndices (l1 ++ l2) = clusterIndices l1 ++ clusterIndices l2 :=
  List.flatMap_append l1 l2 _

theorem greedy_fold_spec {α : Type} [Inhabited α] (sim : α → α → ℚ)
    (responses : List α) (threshold : ℚ) (cands : List (ℕ × ℚ)) :
    ∀ st : List ℕ × List (Cluster α),
    (∀ c ∈ cands, c.1 < responses.length) →
    (clusterIndices st.2).Nodup →
    (∀ x, x ∈ clusterIndices st.2 ↔ x ∈ st.1) →
    (∀ c ∈ st.2, c.size = c.members.length) →
    (∀ x ∈ st.1, x < responses.length) →
    (clusterIndices (cands.foldl (greedyStep sim responses threshold) st).2).Nodup ∧
    (∀ x, x ∈ clusterIndices (cands.foldl (greedyStep sim responses threshold) st).2
        ↔ x ∈ (cands.foldl (greedyStep sim responses threshold) st).1) ∧
    (∀ c ∈ (cands.foldl (greedyStep sim responses threshold) st).2,
        c.size = c.members.length) ∧
    (∀ x ∈ (cands.foldl (greedyStep sim responses threshold) st).1,
        x < responses.length) ∧
    (∀ x ∈ st.1, x ∈ (cands.foldl (greedyStep sim responses threshold) st).1) ∧
    (∀ c ∈ cands, c.1 ∈ (cands.foldl (greedyStep sim responses threshold) st).1) := by
  induction cands with
  | nil =>
    intro st hb hnd hiff hsz hlt
    exact ⟨hnd, hiff, hsz, hlt, fun x hx => hx, by simp⟩
  | cons c cands ih =>
    intro st hb hnd hiff hsz hlt
    rw [List.foldl_cons]
    by_cases hc : c.1 ∈ st.1
    · have hstep : greedyStep sim responses threshold st c = st := by
        simp [greedyStep, hc]
      rw [hstep]
      obtain ⟨h1, h2, h3, h4, h5, h6⟩ :=
        ih st (fun d hd => hb d (List.mem_cons_of_mem _ hd)) hnd hiff hsz hlt
      exact ⟨h1, h2, h3, h4, h5, fun d hd => by
        rcases List.mem_cons.mp hd with rfl | hd
        · exact h5 _ hc
        · exact h6 d hd⟩
    · obtain ⟨Δ, heq, hΔnd, hΔmem⟩ := absorb_fold_spec sim responses threshold c.1
        (List.range responses.length)
        (c.1 :: st.1, [⟨responses.getD c.1 default, c.1, 1⟩], 1)
      have hstep : greedyStep sim responses threshold st c
          = ((Δ.map (fun m => m.index)).reverse ++ c.1 :: st.1,
             st.2 ++ [⟨responses.getD c.1 default,
               ⟨responses.getD c.1 default, c.1, 1⟩ :: Δ, 1 + Δ.length,
               (((⟨responses.getD c.1 default, c.1, 1⟩ : ClusterMember α) :: Δ).map
                   (fun m => m.similarity)).sum / ((1 + Δ.length : ℕ) : ℚ)⟩]) := by
      -- unfolds greedyStep on the not-yet-assigned branch and rewrites the
      -- inner scan via absorb_fold_spec
        simp only [greedyStep, if_neg hc]
        rw [heq]
        simp [List.singleton_append]
      rw [hstep]
      set newC : Cluster α :=
        ⟨responses.getD c.1 default,
         ⟨responses.getD c.1 default, c.1, 1⟩ :: Δ, 1 + Δ.length,
         (((⟨responses.getD c.1 default, c.1, 1⟩ : ClusterMember α) :: Δ).map
             (fun m => m.similarity)).sum / ((1 + Δ.length : ℕ) : ℚ)⟩ with hnewC
      have hCI : clusterIndices (st.2 ++ [newC])
          = clusterIndices st.2 ++ (c.1 :: Δ.map (fun m => m.index)) := by
        rw [clusterIndices_append]
        simp [clusterIndices, hnewC]
      have hΔnotst : ∀ x ∈ Δ.map (fun m => m.index), x ∉ st.1 := by
        intro x hx hxs
        exact (hΔmem x hx).2 (List.mem_cons_of_mem _ hxs)
      have hΔltn : ∀ x ∈ Δ.map (fun m => m.index), x < responses.length := by
        intro x hx
        exact List.mem_range.mp (hΔmem x hx).1
      have hnd1 : (clusterIndices (st.2 ++ [newC])).Nodup := by
        rw [hCI, List.nodup_append]
        refine ⟨hnd, ?_, ?_⟩
        · rw [List.nodup_cons]
          refine ⟨fun hmemc => ?_, hΔnd⟩
          exact (hΔmem c.1 hmemc).2 (List.mem_cons_self _ _)
        · intro x hx
          have hxst : x ∈ st.1 := (hiff x).mp hx
          intro hx2
          rcases List.mem_cons.mp hx2 with rfl | hx2
          · exact hc hxst
          · exact hΔnotst x hx2 hxst
      have hiff1 : ∀ x, x ∈ clusterIndices (st.2 ++ [newC])
          ↔ x ∈ (Δ.map (fun m => m.index)).reverse ++ c.1 :: st.1 := by
        intro x
        rw [hCI]
        simp only [List.mem_append, List.mem_cons, List.mem_reverse]
        rw [hiff x]
        tauto
      have hsz1 : ∀ d ∈ st.2 ++ [newC], d.size = d.members.length := by
        intro d hd
        rcases List.mem_append.mp hd with hd | hd
        · exact hsz d hd
        · rcases List.mem_singleton.mp hd with rfl
          simp [hnewC, Nat.add_comm]
      have hlt1 : ∀ x ∈ (Δ.map (fun m => m.index)).reverse ++ c.1 :: st.1,
          x < responses.length := by
        intro x hx
        rcases List.mem_append.mp hx with hx | hx
        · exact hΔltn x (List.mem_reverse.mp hx)
        · rcases List.mem_cons.mp hx with rfl | hx
          · exact hb c (List.mem_cons_self _ _)
          · exact hlt x hx
      obtain ⟨h1, h2, h3, h4, h5, h6⟩ := ih
        ((Δ.map (fun m => m.index)).reverse ++ c.1 :: st.1, st.2 ++ [newC])
        (fun d hd => hb d (List.mem_cons_of_mem _ hd)) hnd1 hiff1 hsz1 hlt1
      refine ⟨h1, h2, h3, h4, ?_, ?_⟩
      · intro x hx
        exact h5 x (List.mem_append.mpr (Or.inr (List.mem_cons_of_mem _ hx)))
      · intro d hd
        rcases List.mem_cons.mp hd with rfl | hd
        · exact h5 d.1 (List.mem_append.mpr (Or.inr (List.mem_cons_self _ _)))
        · exact h6 d hd

theorem greedyCluster_partition {α : Type} [Inhabited α] (sim : α → α → ℚ)
    (responses : List α) (threshold : ℚ) :
    (∀ c ∈ greedyCluster sim responses threshold, c.size = c.members.length) ∧
    (clusterIndices (greedyCluster sim responses threshold)).Perm
      (List.range responses.length) := by
  have hcands : ∀ c ∈ sortBy (fun a b => decide (b.2 ≤ a.2))
      ((List.range responses.length).map
        (fun i => (i, avgRowSim sim responses i))), c.1 < responses.length := by
    intro c hc
    have := (sortBy_perm _ _).mem_iff.mp hc
    obtain ⟨i, hi, rfl⟩ := List.mem_map.mp this
    exact List.mem_range.mp hi
  obtain ⟨h1, h2, h3, h4, _, h6⟩ := greedy_fold_spec sim responses threshold
    (sortBy (fun a b => decide (b.2 ≤ a.2))
      ((List.range responses.length).map
        (fun i => (i, avgRowSim sim responses i))))
    ([], []) hcands (by simp [clusterIndices]) (by simp [clusterIndices])
    (by simp) (by simp)
  set r := (sortBy (fun a b => decide (b.2 ≤ a.2))
      ((List.range responses.length).map
        (fun i => (i, avgRowSim sim responses i)))).foldl
    (greedyStep sim responses threshold) ([], []) with hr
  have hperm0 : (clusterIndices r.2).Perm (List.range responses.length) := by
    rw [List.perm_ext_iff_of_nodup h1 (List.nodup_range _)]
    intro x
    rw [h2 x, List.mem_range]
    constructor
    · exact h4 x
    · intro hx
      refine h6 (x, avgRowSim sim responses x) ?_
      rw [(sortBy_perm _ _).mem_iff]
      exact List.mem_map.mpr ⟨x, List.mem_range.mpr hx, rfl⟩
  have hpermsort : (greedyCluster sim responses threshold).Perm r.2 := by
    rw [greedyCluster]
    exact sortBy_perm _ _
  constructor
  · intro c hc
    exact h3 c (hpermsort.mem_iff.mp hc)
  · have h := hpermsort.flatMap_right (fun c => c.members.map (fun m => m.index))
    rw [clusterIndices] at hperm0 ⊢
    exact h.trans hperm0

theorem sum_sizes_eq_length_clusterIndices {α : Type} (cs : List (Cluster α))
    (hsz : ∀ c ∈ cs, c.size = c.members.length) :
    (cs.map (fun c => c.size)).sum = (clusterIndices cs).length := by
  induction cs with
  | nil => simp [clusterIndices]
  | cons c cs ih =>
    rw [clusterIndices, List.flatMap_cons, List.map_cons, List.sum_cons,
      List.length_append, List.length_map]
    rw [← clusterIndices, ih (fun d hd => hsz d (List.mem_cons_of_mem _ hd))]
    rw [hsz c (List.mem_cons_self _ _)]

/-- C2: `CodeClusterer.cluster` partitions its input exactly: the
cluster sizes sum to the number of responses, and the member indices
over all clusters are a permutation of `0..n-1` (each response index
appears in exactly one cluster). -/
theorem cluster_partition {α : Type} [Inhabited α] (sim : α → α → ℚ)
    (responses : List α) (similarityThreshold : ℚ) :
    ((cluster sim responses similarityThreshold).map (fun c => c.size)).sum
        = responses.length ∧
    (clusterIndices (cluster sim responses similarityThreshold)).Perm
      (List.range responses.length) := by
  match responses with
  | [] => simp [cluster, clusterIndices]
  | [r] =>
    constructor
    · simp [cluster]
    · simp [cluster, clusterIndices, List.range_succ]
  | a :: b :: rest =>
    have hgc : cluster sim (a :: b :: rest) similarityThreshold
        = greedyCluster sim (a :: b :: rest) similarityThreshold := rfl
    obtain ⟨hsz, hperm⟩ := greedyCluster_partition sim (a :: b :: rest)
      similarityThreshold
    rw [hgc]
    refine ⟨?_, hperm⟩
    rw [sum_sizes_eq_length_clusterIndices _ hsz, hperm.length_eq,
      List.length_range]

theorem maxVotes_cons {α : Type} (c : Cluster α) (l : List (Cluster α)) :
    maxVotes (c :: l) = max c.size (maxVotes l) := rfl

theorem maxVotes_le {α : Type} (l : List (Cluster α)) (m : ℕ)
    (h : ∀ c ∈ l, c.size ≤ m) : maxVotes l ≤ m := by
  induction l with
  | nil => simp [maxVotes]
  | cons c l ih =>
    rw [maxVotes_cons]
    exact max_le (h c (List.mem_cons_self _ _))
      (ih fun d hd => h d (List.mem_cons_of_mem _ hd))

/-- C1: whenever at least two candidates survive red-flagging,
`VotingManager.vote` succeeds, its winner text is the representative of a
cluster with the most votes (votes = cluster size), the reported
runner-up votes are the largest size among the remaining clusters (`0`
when the winning cluster is the only one), and the reliable flag is set
exactly when the margin (winner votes minus runner-up votes) is at least
`k`. -/
theorem vote_winner_top {α : Type} [Inhabited α] (validate : α → Validation)
    (sim : α → α → ℚ) (similarityThreshold : ℚ) (candidates : List α)
    (kOpt : Option ℕ)
    (h2 : 2 ≤ (validCandidatesOf validate candidates).length) :
    ∃ r : VoteResult α,
      vote validate sim similarityThreshold candidates kOpt = .ok r ∧
      ∃ c : Cluster α, ∃ rest : List (Cluster α),
        (cluster sim (validCandidatesOf validate candidates)
            similarityThreshold).Perm (c :: rest) ∧
        (∀ c' ∈ rest, c'.size ≤ c.size) ∧
        r.winner = c.representative ∧
        r.votingStats.winnerVotes = some c.size ∧
        r.votingStats.runnerUpVotes = some (maxVotes rest) ∧
        r.votingStats.margin = some ((c.size : ℤ) - (maxVotes rest : ℤ)) ∧
        r.votingStats.reliable
          = decide ((resolveK kOpt : ℤ)
              ≤ (c.size : ℤ) - (maxVotes rest : ℤ)) := by
  have hfle : (validCandidatesOf validate candidates).length ≤ candidates.length :=
    List.length_filter_le _ _
  have hb0 : ¬ (candidates.length = 0) := by omega
  have hv0 : ¬ ((validCandidatesOf validate candidates).length = 0) := by omega
  have hv1 : ¬ ((validCandidatesOf validate candidates).length = 1) := by omega
  have htrans : ∀ a b c : Cluster α, decide (b.size ≤ a.size) = true →
      decide (c.size ≤ b.size) = true → decide (c.size ≤ a.size) = true := by
    intro a b c hab hbc
    rw [decide_eq_true_eq] at hab hbc ⊢
    omega
  have htot : ∀ a b : Cluster α, decide (b.size ≤ a.size) = true ∨
      decide (a.size ≤ b.size) = true := by
    intro a b
    rcases Nat.le_total b.size a.size with h | h
    · exact Or.inl (decide_eq_true h)
    · exact Or.inr (decide_eq_true h)
  have hperm := (cluster_partition sim (validCandidatesOf validate candidates)
    similarityThreshold).2
  cases hvotes : sortBy (fun a b : Cluster α => decide (b.size ≤ a.size))
      (cluster sim (validCandidatesOf validate candidates) similarityThreshold) with
  | nil =>
    exfalso
    have hp := sortBy_perm (fun a b : Cluster α => decide (b.size ≤ a.size))
      (cluster sim (validCandidatesOf validate candidates) similarityThreshold)
    rw [hvotes] at hp
    have hcl := hp.symm.eq_nil
    rw [hcl] at hperm
    have : (clusterIndices ([] : List (Cluster α))).length
        = (List.range (validCandidatesOf validate candidates).length).length :=
      hperm.length_eq
    simp [clusterIndices] at this
    omega
  | cons w rest =>
    have hp := sortBy_perm (fun a b : Cluster α => decide (b.size ≤ a.size))
      (cluster sim (validCandidatesOf validate candidates) similarityThreshold)
    rw [hvotes] at hp
    have hpw := sortBy_pairwise (fun a b : Cluster α => decide (b.size ≤ a.size))
      htrans htot
      (cluster sim (validCandidatesOf validate candidates) similarityThreshold)
    rw [hvotes] at hpw
    rcases List.pairwise_cons.mp hpw with ⟨hw, hrestpw⟩
    have hwmax : ∀ c' ∈ rest, c'.size ≤ w.size := by
      intro c' hc'
      have := hw c' hc'
      rwa [decide_eq_true_eq] at this
    have hrunner : (Option.map (fun c => c.size) rest[0]?).getD 0
        = maxVotes rest := by
      rcases rest with _ | ⟨r1, rest2⟩
      · simp [maxVotes]
      · rcases List.pairwise_cons.mp hrestpw with ⟨hr1, _⟩
        have h1 : ∀ c ∈ rest2, c.size ≤ r1.size := by
          intro c hc
          have := hr1 c hc
          rwa [decide_eq_true_eq] at this
        have : maxVotes (r1 :: rest2) = r1.size := by
          rw [maxVotes_cons]
          exact max_eq_left (maxVotes_le rest2 r1.size h1)
        simp [this]
    obtain ⟨r, heq⟩ : ∃ r : VoteResult α,
        vote validate sim similarityThreshold candidates kOpt = .ok r := by
      simp only [vote, if_neg hb0, if_neg hv0, if_neg hv1]
      exact ⟨_, rfl⟩
    have heq2 := heq
    simp only [vote, if_neg hb0, if_neg hv0, if_neg hv1] at heq2
    rw [hvotes, Except.ok.injEq] at heq2
    subst heq2
    refine ⟨_, heq, w, rest, hp.symm, hwmax, ?_, ?_, ?_, ?_, ?_⟩
    · simp
    · simp
    · simp [hrunner]
    · simp [hrunner]
    · simp [hrunner]

theorem vote_winner_top_witness :
    2 ≤ (validCandidatesOf (fun _ : ℕ => ⟨true, 1⟩) [0, 1]).length ∧
    ∃ r : VoteResult ℕ,
      vote (fun _ : ℕ => ⟨true, 1⟩) (fun _ _ => 1) (7/10) [0, 1] (some 2)
          = .ok r ∧
      ∃ c : Cluster ℕ, ∃ rest : List (Cluster ℕ),
        (cluster (fun _ _ => 1) (validCandidatesOf (fun _ : ℕ => ⟨true, 1⟩) [0, 1])
            (7/10)).Perm (c :: rest) ∧
        (∀ c' ∈ rest, c'.size ≤ c.size) ∧
        r.winner = c.representative ∧
        r.votingStats.winnerVotes = some c.size ∧
        r.votingStats.runnerUpVotes = some (maxVotes rest) ∧
        r.votingStats.margin = some ((c.size : ℤ) - (maxVotes rest : ℤ)) ∧
        r.votingStats.reliable
          = decide ((resolveK (some 2) : ℤ)
              ≤ (c.size : ℤ) - (maxVotes rest : ℤ)) :=
  ⟨by decide,
   vote_winner_top (fun _ : ℕ => ⟨true, 1⟩) (fun _ _ => 1) (7/10) [0, 1]
     (some 2) (by decide)⟩

/-- C6: when at least one candidate was generated but none passes
validation, `VotingManager.vote` returns a winner that is an original
candidate with the highest validator confidence among all of them,
confidence fixed at `0.3`, `reliable = false`, `validCandidates = 0`,
and a non-empty warning. -/
theorem vote_all_invalid {α : Type} [Inhabited α] (validate : α → Validation)
    (sim : α → α → ℚ) (similarityThreshold : ℚ) (candidates : List α)
    (kOpt : Option ℕ)
    (hne : candidates ≠ [])
    (hall : ∀ c ∈ candidates, (validate c).valid = false) :
    ∃ r : VoteResult α,
      vote validate sim similarityThreshold candidates kOpt = .ok r ∧
      r.winner ∈ candidates ∧
      (∀ c ∈ candidates,
        (validate c).confidence ≤ (validate r.winner).confidence) ∧
      r.confidence = 3/10 ∧
      r.votingStats.reliable = false ∧
      r.votingStats.validCandidates = 0 ∧
      ∃ w : String, r.warning = some w ∧ w ≠ "" := by
  have hfilter : validCandidatesOf validate candidates = [] := by
    rw [validCandidatesOf, List.filter_eq_nil_iff]
    intro c hc
    simp [hall c hc]
  have hb0 : ¬ (candidates.length = 0) := by
    intro h
    exact hne (List.length_eq_zero.mp h)
  have hv0 : (validCandidatesOf validate candidates).length = 0 := by
    rw [hfilter]
    rfl
  have htrans : ∀ a b c : α,
      decide ((validate b).confidence ≤ (validate a).confidence) = true →
      decide ((validate c).confidence ≤ (validate b).confidence) = true →
      decide ((validate c).confidence ≤ (validate a).confidence) = true := by
    intro a b c hab hbc
    rw [decide_eq_true_eq] at hab hbc ⊢
    exact le_trans hbc hab
  have htot : ∀ a b : α,
      decide ((validate b).confidence ≤ (validate a).confidence) = true ∨
      decide ((validate a).confidence ≤ (validate b).confidence) = true := by
    intro a b
    rcases le_total (validate b).confidence (validate a).confidence with h | h
    · exact Or.inl (decide_eq_true h)
    · exact Or.inr (decide_eq_true h)
  cases hsorted : sortBy
      (fun a b : α => decide ((validate b).confidence ≤ (validate a).confidence))
      candidates with
  | nil =>
    exfalso
    have hp := sortBy_perm
      (fun a b : α => decide ((validate b).confidence ≤ (validate a).confidence))
      candidates
    rw [hsorted] at hp
    exact hne hp.symm.eq_nil
  | cons b t =>
    have hp := sortBy_perm
      (fun a b : α => decide ((validate b).confidence ≤ (validate a).confidence))
      candidates
    rw [hsorted] at hp
    have hpw := sortBy_pairwise
      (fun a b : α => decide ((validate b).confidence ≤ (validate a).confidence))
      htrans htot candidates
    rw [hsorted] at hpw
    rcases List.pairwise_cons.mp hpw with ⟨hb, _⟩
    obtain ⟨r, heq⟩ : ∃ r : VoteResult α,
        vote validate sim similarityThreshold candidates kOpt = .ok r := by
      simp only [vote, if_neg hb0, if_pos hv0]
      exact ⟨_, rfl⟩
    have heq2 := heq
    simp only [vote, if_neg hb0, if_pos hv0] at heq2
    rw [hsorted, Except.ok.injEq] at heq2
    subst heq2
    refine ⟨_, heq, ?_, ?_, rfl, rfl, rfl,
      "All candidates failed validation - returning least bad option",
      rfl, by decide⟩
    · show (b :: t).getD 0 default ∈ candidates
      exact hp.mem_iff.mp (List.mem_cons_self _ _)
    · intro c hc
      show (validate c).confidence
          ≤ (validate ((b :: t).getD 0 default)).confidence
      rcases List.mem_cons.mp (hp.mem_iff.mpr hc) with rfl | hct
      · exact le_refl _
      · have := hb c hct
        rw [decide_eq_true_eq] at this
        exact this

theorem vote_all_invalid_witness :
    ([5] : List ℕ) ≠ [] ∧
    (∀ c ∈ ([5] : List ℕ), ((fun _ : ℕ => (⟨false, 1/2⟩ : Validation)) c).valid
        = false) ∧
    ∃ r : VoteResult ℕ,
      vote (fun _ : ℕ => ⟨false, 1/2⟩) (fun _ _ => 1) (7/10) [5] none = .ok r ∧
      r.winner ∈ ([5] : List ℕ) ∧
      (∀ c ∈ ([5] : List ℕ),
        ((fun _ : ℕ => (⟨false, 1/2⟩ : Validation)) c).confidence
          ≤ ((fun _ : ℕ => (⟨false, 1/2⟩ : Validation)) r.winner).confidence) ∧
      r.confidence = 3/10 ∧
      r.votingStats.reliable = false ∧
      r.votingStats.validCandidates = 0 ∧
      ∃ w : String, r.warning = some w ∧ w ≠ "" :=
  ⟨by decide, by decide,
   vote_all_invalid (fun _ : ℕ => ⟨false, 1/2⟩) (fun _ _ => 1) (7/10) [5] none
     (by decide) (by decide)⟩

theorem SpecStep.comp {g : DepGraph} {f h : List ℤ × List ℤ → List ℤ × List ℤ}
    (hf : SpecStep g f) (hh : SpecStep g h) :
    SpecStep g (fun st => h (f st)) := by
  intro st
  obtain ⟨Δv1, Δo1, he1, hn1, hv1, hi1⟩ := hf st
  obtain ⟨Δv2, Δo2, he2, hn2, hv2, hi2⟩ := hh (f st)
  refine ⟨Δv2 ++ Δv1, Δo1 ++ Δo2, ?_, ?_, ?_, ?_⟩
  · show h (f st) = (Δv2 ++ Δv1 ++ st.1, st.2 ++ (Δo1 ++ Δo2))
    rw [he2, he1]
    simp [List.append_assoc]
  · rw [List.nodup_append]
    refine ⟨hn1, hn2, ?_⟩
    intro x hx1 hx2
    have hxv2 : x ∈ Δv2 := ((hi2 x).mp hx2).1
    have hnot := hv2 x hxv2
    rw [he1] at hnot
    exact hnot (List.mem_append.mpr (Or.inl ((hi1 x).mp hx1).1))
  · intro x hx
    rcases List.mem_append.mp hx with hx | hx
    · have hnot := hv2 x hx
      rw [he1] at hnot
      exact fun hxst => hnot (List.mem_append.mpr (Or.inr hxst))
    · exact hv1 x hx
  · intro x
    rw [List.mem_append, hi1 x, hi2 x, List.mem_append]
    constructor
    · rintro (⟨h1, h2⟩ | ⟨h1, h2⟩)
      · exact ⟨Or.inr h1, h2⟩
      · exact ⟨Or.inl h1, h2⟩
    · rintro ⟨h1 | h1, h2⟩
      · exact Or.inr ⟨h1, h2⟩
      · exact Or.inl ⟨h1, h2⟩

theorem visitFold_spec (g : DepGraph) (fuel : ℕ)
    (H : ∀ i : ℤ, SpecStep g (fun st => visitFuel g fuel i st)) :
    ∀ ds : List ℤ,
    SpecStep g (fun st => ds.foldl (fun acc d => visitFuel g fuel d acc) st) := by
  intro ds
  induction ds with
  | nil =>
    intro st
    exact ⟨[], [], by simp, List.nodup_nil, by simp, by simp⟩
  | cons d ds ih =>
    exact SpecStep.comp (H d) ih

theorem visitFuel_spec (g : DepGraph) :
    ∀ fuel : ℕ, ∀ i : ℤ, SpecStep g (fun st => visitFuel g fuel i st) := by
  intro fuel
  induction fuel with
  | zero =>
    intro i st
    exact ⟨[], [], by simp [visitFuel], List.nodup_nil, by simp, by simp⟩
  | succ fuel ih =>
    intro i st
    by_cases hj : i ∈ st.1
    · refine ⟨[], [], ?_, List.nodup_nil, by simp, by simp⟩
      simp [visitFuel, hj]
    · cases hlk : lookupNode g i with
      | none =>
        refine ⟨[i], [], ?_, List.nodup_nil, ?_, ?_⟩
        · simp [visitFuel, hj, hlk]
        · intro x hx
          rcases List.mem_singleton.mp hx with rfl
          exact hj
        · intro x
          simp only [List.not_mem_nil, List.mem_singleton, false_iff]
          rintro ⟨rfl, hxk⟩
          rw [graphKeys, List.mem_map] at hxk
          obtain ⟨n, hn, hid⟩ := hxk
          have := List.find?_eq_none.mp hlk n hn
          simp [hid] at this
      | some node =>
        obtain ⟨Δv1, Δo1, he, hn, hv, hi⟩ :=
          visitFold_spec g fuel ih node.dependsOn (i :: st.1, st.2)
        have he2 : node.dependsOn.foldl (fun acc d => visitFuel g fuel d acc)
            (i :: st.1, st.2) = (Δv1 ++ (i :: st.1), st.2 ++ Δo1) := he
        have hlk' : List.find? (fun n => n.id == i) g = some node := hlk
        have hik : i ∈ graphKeys g := by
          have hmem := List.mem_of_find?_eq_some hlk'
          have hp := List.find?_some hlk'
          rw [graphKeys, List.mem_map]
          exact ⟨node, hmem, by simpa using hp⟩
        refine ⟨Δv1 ++ [i], Δo1 ++ [i], ?_, ?_, ?_, ?_⟩
        · simp only [visitFuel, if_neg hj, hlk]
          rw [he2]
          simp [List.append_assoc]
        · rw [List.nodup_append]
          refine ⟨hn, List.nodup_singleton i, ?_⟩
          intro x hx hx2
          rcases List.mem_singleton.mp hx2 with rfl
          exact hv x ((hi x).mp hx).1 (List.mem_cons_self _ _)
        · intro x hx
          rcases List.mem_append.mp hx with hx | hx
          · exact fun hxst => hv x hx (List.mem_cons_of_mem _ hxst)
          · rcases List.mem_singleton.mp hx with rfl
            exact hj
        · intro x
          simp only [List.mem_append, List.mem_singleton, hi x]
          constructor
          · rintro (⟨h1, h2⟩ | rfl)
            · exact ⟨Or.inl h1, h2⟩
            · exact ⟨Or.inr rfl, hik⟩
          · rintro ⟨h1 | h1, h2⟩
            · exact Or.inl ⟨h1, h2⟩
            · exact Or.inr h1

theorem SpecStep.visited_mono {g : DepGraph}
    {f : List ℤ × List ℤ → List ℤ × List ℤ} (h : SpecStep g f)
    (st : List ℤ × List ℤ) : ∀ x ∈ st.1, x ∈ (f st).1 := by
  intro x hx
  obtain ⟨Δv, Δo, he, _, _, _⟩ := h st
  rw [he]
  exact List.mem_append.mpr (Or.inr hx)

theorem visitFuel_visits (g : DepGraph) (fuel : ℕ) (hf : 1 ≤ fuel) (i : ℤ)
    (st : List ℤ × List ℤ) : i ∈ (visitFuel g fuel i st).1 := by
  rcases fuel with _ | fuel
  · omega
  · by_cases hj : i ∈ st.1
    · simpa [visitFuel, hj] using hj
    · cases hlk : lookupNode g i with
      | none => simp [visitFuel, hj, hlk]
      | some node =>
        simp only [visitFuel, if_neg hj, hlk]
        exact SpecStep.visited_mono
          (visitFold_spec g fuel (visitFuel_spec g fuel) node.dependsOn)
          (i :: st.1, st.2) i (List.mem_cons_self _ _)

theorem visitFold_visits (g : DepGraph) (fuel : ℕ) (hf : 1 ≤ fuel) :
    ∀ ds : List ℤ, ∀ st : List ℤ × List ℤ,
    (∀ x ∈ st.1, x ∈ (ds.foldl (fun acc d => visitFuel g fuel d acc) st).1) ∧
    (∀ d ∈ ds, d ∈ (ds.foldl (fun acc d => visitFuel g fuel d acc) st).1) := by
  intro ds
  induction ds with
  | nil =>
    intro st
    exact ⟨fun x hx => hx, by simp⟩
  | cons d ds ih =>
    intro st
    rw [List.foldl_cons]
    constructor
    · intro x hx
      exact (ih _).1 x
        (SpecStep.visited_mono (visitFuel_spec g fuel d) st x hx)
    · intro e he
      rcases List.mem_cons.mp he with rfl | he
      · exact (ih _).1 e (visitFuel_visits g fuel hf e st)
      · exact (ih _).2 e he

/-- C10: for every dependency graph — cyclic ones included —
`TaskDecomposer._topologicalSort` terminates (the visited set bounds the
recursion depth, modelled by the proven-sufficient fuel) and emits every
key of the graph exactly once: the execution order is a permutation of
the graph's keys. -/
theorem topologicalSort_perm_keys (g : DepGraph)
    (hnd : (graphKeys g).Nodup) :
    (topologicalSort g).Perm (graphKeys g) := by
  have hFuel1 : 1 ≤ (univIds g).length + 1 := by omega
  obtain ⟨Δv, Δo, he, hn, hv, hi⟩ :=
    visitFold_spec g ((univIds g).length + 1)
      (visitFuel_spec g ((univIds g).length + 1)) (graphKeys g) ([], [])
  have hvisits := (visitFold_visits g ((univIds g).length + 1) hFuel1
    (graphKeys g) ([], [])).2
  have he2 : (graphKeys g).foldl
      (fun st i => visitFuel g ((univIds g).length + 1) i st) ([], [])
      = (Δv ++ [], Δo) := he
  have htop : topologicalSort g = Δo := by
    rw [topologicalSort, he2]
  rw [htop, List.perm_ext_iff_of_nodup hn hnd]
  intro x
  constructor
  · intro hx
    exact ((hi x).mp hx).2
  · intro hx
    have hxv := hvisits x hx
    rw [he2] at hxv
    have hxΔv : x ∈ Δv := by simpa using hxv
    exact (hi x).mpr ⟨hxΔv, hx⟩

theorem topologicalSort_perm_keys_witness :
    (graphKeys [⟨1, [1]⟩, ⟨2, [1]⟩]).Nodup ∧
    (topologicalSort [⟨1, [1]⟩, ⟨2, [1]⟩]).Perm
      (graphKeys [⟨1, [1]⟩, ⟨2, [1]⟩]) :=
  ⟨by decide, topologicalSort_perm_keys [⟨1, [1]⟩, ⟨2, [1]⟩] (by decide)⟩

theorem unvisitedCard_lt_of_visit (g : DepGraph) {i : ℤ} {visited : List ℤ}
    (hiu : i ∈ univIds g) (hj : i ∉ visited) :
    unvisitedCard g (i :: visited) < unvisitedCard g visited := by
  have hsub : (univFinset g).filter (fun x => x ∉ i :: visited)
      ⊆ (univFinset g).filter (fun x => x ∉ visited) := by
    intro x hx
    rw [Finset.mem_filter] at hx ⊢
    exact ⟨hx.1, fun hxm => hx.2 (List.mem_cons_of_mem _ hxm)⟩
  rw [unvisitedCard, unvisitedCard]
  apply Finset.card_lt_card
  rw [Finset.ssubset_iff_of_subset hsub]
  refine ⟨i, ?_, ?_⟩
  · rw [Finset.mem_filter]
    exact ⟨by rw [univFinset, List.mem_toFinset]; exact hiu, hj⟩
  · intro hmem
    rw [Finset.mem_filter] at hmem
    exact hmem.2 (List.mem_cons_self _ _)

theorem unvisitedCard_le_of_subset (g : DepGraph) {v1 v2 : List ℤ}
    (h : ∀ x ∈ v1, x ∈ v2) :
    unvisitedCard g v2 ≤ unvisitedCard g v1 := by
  apply Finset.card_le_card
  intro x hx
  rw [Finset.mem_filter] at hx ⊢
  exact ⟨hx.1, fun hm => hx.2 (h x hm)⟩

theorem edge_dep_of_lookup (g : DepGraph) (hnd : (graphKeys g).Nodup)
    {i : ℤ} {node : GraphNode} (hlk : lookupNode g i = some node)
    {d : ℤ} (hed : edgeRel g i d) : d ∈ node.dependsOn := by
  obtain ⟨n', hn'g, hn'id, hdmem⟩ := hed
  have hlk' : List.find? (fun n => n.id == i) g = some node := hlk
  have hnodeg := List.mem_of_find?_eq_some hlk'
  have hp := List.find?_some hlk'
  have hnodeid : node.id = i := by simpa using hp
  have hnd' : (g.map (fun n => n.id)).Nodup := hnd
  have heqn : n' = node :=
    List.inj_on_of_nodup_map hnd' hn'g hnodeg (by rw [hn'id, hnodeid])
  rw [← heqn]
  exact hdmem

theorem visitFold_orderInv (g : DepGraph) (fuel : ℕ) (grey : List ℤ)
    (IH : ∀ i : ℤ, ∀ grey' : List ℤ, ∀ st : List ℤ × List ℤ,
      unvisitedCard g st.1 < fuel → i ∈ univIds g →
      (∀ x ∈ grey', Relation.TransGen (edgeRel g) x i) →
      (∀ x ∈ grey', x ∈ st.1) →
      OrderInv g grey' st → OrderInv g grey' (visitFuel g fuel i st)) :
    ∀ ds : List ℤ, ∀ st : List ℤ × List ℤ,
    unvisitedCard g st.1 < fuel →
    (∀ d ∈ ds, d ∈ univIds g) →
    (∀ d ∈ ds, ∀ x ∈ grey, Relation.TransGen (edgeRel g) x d) →
    (∀ x ∈ grey, x ∈ st.1) →
    OrderInv g grey st →
    OrderInv g grey (ds.foldl (fun acc d => visitFuel g fuel d acc) st) := by
  intro ds
  induction ds with
  | nil =>
    intro st _ _ _ _ h
    exact h
  | cons d ds ih =>
    intro st hfu hdu hdg hgs hinv
    rw [List.foldl_cons]
    have hstep := IH d grey st hfu (hdu d (List.mem_cons_self _ _))
      (hdg d (List.mem_cons_self _ _)) hgs hinv
    have hmono := SpecStep.visited_mono (visitFuel_spec g fuel d) st
    have hfu' : unvisitedCard g (visitFuel g fuel d st).1 < fuel :=
      lt_of_le_of_lt (unvisitedCard_le_of_subset g hmono) hfu
    exact ih _ hfu' (fun e he => hdu e (List.mem_cons_of_mem _ he))
      (fun e he x hx => hdg e (List.mem_cons_of_mem _ he) x hx)
      (fun x hx => hmono x (hgs x hx)) hstep

theorem visitFuel_orderInv (g : DepGraph) (hnd : (graphKeys g).Nodup)
    (hcl : DepClosed g) (hac : AcyclicDep g) :
    ∀ fuel : ℕ, ∀ i : ℤ, ∀ grey : List ℤ, ∀ st : List ℤ × List ℤ,
    unvisitedCard g st.1 < fuel → i ∈ univIds g →
    (∀ x ∈ grey, Relation.TransGen (edgeRel g) x i) →
    (∀ x ∈ grey, x ∈ st.1) →
    OrderInv g grey st →
    OrderInv g grey (visitFuel g fuel i st) := by
  intro fuel
  induction fuel with
  | zero =>
    intro i grey st hfu
    exact absurd hfu (Nat.not_lt_zero _)
  | succ fuel ihf =>
    intro i grey st hfu hiu hgt hgs hinv
    by_cases hj : i ∈ st.1
    · simpa [visitFuel, hj] using hinv
    · cases hlk : lookupNode g i with
      | none =>
        have hik : i ∉ graphKeys g := by
          intro hk
          rw [graphKeys, List.mem_map] at hk
          obtain ⟨n, hng, hid⟩ := hk
          have hlk' : List.find? (fun n => n.id == i) g = none := hlk
          have := List.find?_eq_none.mp hlk' n hng
          simp [hid] at this
        obtain ⟨h0, h1, h2, h3⟩ := hinv
        simp only [visitFuel, if_neg hj, hlk]
        refine ⟨fun x hx => List.mem_cons_of_mem _ (h0 x hx), ?_, h2, h3⟩
        intro x hx hxg hxk
        rcases List.mem_cons.mp hx with rfl | hx
        · exact absurd hxk hik
        · exact h1 x hx hxg hxk
      | some node =>
        have hlk' : List.find? (fun n => n.id == i) g = some node := hlk
        have hnodeg : node ∈ g := List.mem_of_find?_eq_some hlk'
        have hnodeid : node.id = i := by
          have hp := List.find?_some hlk'
          simpa using hp
        have hedge : ∀ d ∈ node.dependsOn, edgeRel g i d :=
          fun d hd => ⟨node, hnodeg, hnodeid, hd⟩
        have hdu : ∀ d ∈ node.dependsOn, d ∈ univIds g := by
          intro d hd
          rw [univIds, List.mem_append]
          exact Or.inr (List.mem_flatMap.mpr ⟨node, hnodeg, hd⟩)
        have hfuel1 : 1 ≤ fuel := by
          have := Nat.zero_le (unvisitedCard g (i :: st.1))
          have hlt := unvisitedCard_lt_of_visit g hiu hj
          omega
        have hfu' : unvisitedCard g (i :: st.1) < fuel := by
          have hlt := unvisitedCard_lt_of_visit g hiu hj
          omega
        have hgt' : ∀ d ∈ node.dependsOn, ∀ x ∈ i :: grey,
            Relation.TransGen (edgeRel g) x d := by
          intro d hd x hx
          rcases List.mem_cons.mp hx with rfl | hx
          · exact Relation.TransGen.single (hedge d hd)
          · exact Relation.TransGen.tail (hgt x hx) (hedge d hd)
        have hgs' : ∀ x ∈ i :: grey, x ∈ i :: st.1 := by
          intro x hx
          rcases List.mem_cons.mp hx with rfl | hx
          · exact List.mem_cons_self _ _
          · exact List.mem_cons_of_mem _ (hgs x hx)
        have hinv' : OrderInv g (i :: grey) (i :: st.1, st.2) := by
          obtain ⟨h0, h1, h2, h3⟩ := hinv
          refine ⟨fun x hx => List.mem_cons_of_mem _ (h0 x hx), ?_, h2, h3⟩
          intro x hx hxg hxk
          rcases List.mem_cons.mp hx with rfl | hx
          · exact absurd (List.mem_cons_self _ _) hxg
          · exact h1 x hx (fun hg => hxg (List.mem_cons_of_mem _ hg)) hxk
        have hfold := visitFold_orderInv g fuel (i :: grey) ihf node.dependsOn
          (i :: st.1, st.2) hfu' hdu hgt' hgs' hinv'
        have hdvisited := (visitFold_visits g fuel hfuel1 node.dependsOn
          (i :: st.1, st.2)).2
        have hvmono := (visitFold_visits g fuel hfuel1 node.dependsOn
          (i :: st.1, st.2)).1
        obtain ⟨Δv, Δo, he, hΔn, hΔv, hΔi⟩ :=
          visitFold_spec g fuel (visitFuel_spec g fuel) node.dependsOn
            (i :: st.1, st.2)
        have he2 : node.dependsOn.foldl (fun acc d => visitFuel g fuel d acc)
            (i :: st.1, st.2) = (Δv ++ (i :: st.1), st.2 ++ Δo) := he
        obtain ⟨k0, k1, k2, k3⟩ := hfold
        have hinot : i ∉ (node.dependsOn.foldl
            (fun acc d => visitFuel g fuel d acc) (i :: st.1, st.2)).2 := by
          rw [he2]
          intro hmem
          rcases List.mem_append.mp hmem with hmem | hmem
          · exact hj (hinv.1 i hmem)
          · exact hΔv i ((hΔi i).mp hmem).1 (List.mem_cons_self _ _)
        have hdng : ∀ d ∈ node.dependsOn, d ∉ i :: grey := by
          intro d hd hm
          rcases List.mem_cons.mp hm with rfl | hm
          · exact hac d (Relation.TransGen.single (hedge d hd))
          · exact hac d (Relation.TransGen.tail (hgt d hm) (hedge d hd))
        simp only [visitFuel, if_neg hj, hlk]
        refine ⟨?_, ?_, ?_, ?_⟩
        · intro x hx
          rcases List.mem_append.mp hx with hx | hx
          · exact k0 x hx
          · rcases List.mem_singleton.mp hx with rfl
            exact hvmono x (List.mem_cons_self _ _)
        · intro x hx hxg hxk
          by_cases hxi : x = i
          · subst hxi
            exact List.mem_append.mpr (Or.inr (List.mem_singleton.mpr rfl))
          · have hxg' : x ∉ i :: grey := by
              intro hm
              rcases List.mem_cons.mp hm with rfl | hm
              · exact hxi rfl
              · exact hxg hm
            exact List.mem_append.mpr (Or.inl (k1 x hx hxg' hxk))
        · rw [List.pairwise_append]
          refine ⟨k2, List.pairwise_singleton _ _, ?_⟩
          intro a ha b hb
          rcases List.mem_singleton.mp hb with rfl
          intro hedgeai
          exact hinot (k3 a ha b hedgeai)
        · intro u hu d hd
          rcases List.mem_append.mp hu with hu | hu
          · exact List.mem_append.mpr (Or.inl (k3 u hu d hd))
          · have hui : u = i := List.mem_singleton.mp hu
            rw [hui] at hd
            have hdmem : d ∈ node.dependsOn :=
              edge_dep_of_lookup g hnd hlk hd
            have hdk : d ∈ graphKeys g := hcl node hnodeg d hdmem
            have hdvis : d ∈ (node.dependsOn.foldl
                (fun acc d => visitFuel g fuel d acc) (i :: st.1, st.2)).1 :=
              hdvisited d hdmem
            exact List.mem_append.mpr
              (Or.inl (k1 d hdvis (hdng d hdmem) hdk))

/-- C7: for every wellformed acyclic dependency graph (distinct keys,
dependencies pointing at keys — as holds for every graph built from a
normalized plan), the execution order produced by
`TaskDecomposer._topologicalSort` lists each node after every id in its
`dependsOn` list: dependencies are always emitted before their
dependents. -/
theorem topologicalSort_deps_before (g : DepGraph)
    (hnd : (graphKeys g).Nodup) (hcl : DepClosed g) (hac : AcyclicDep g) :
    ∀ nd ∈ g, ∀ d ∈ nd.dependsOn,
      d ∈ topologicalSort g ∧ nd.id ∈ topologicalSort g ∧
      (topologicalSort g).indexOf d < (topologicalSort g).indexOf nd.id := by
  have hFuel1 : 1 ≤ (univIds g).length + 1 := by omega
  have hmeasure : unvisitedCard g [] < (univIds g).length + 1 := by
    have h1 : ((univFinset g).filter (fun x => x ∉ ([] : List ℤ))).card
        ≤ (univFinset g).card := Finset.card_filter_le _ _
    have h2 : (univFinset g).card ≤ (univIds g).length :=
      List.toFinset_card_le _
    rw [unvisitedCard]
    omega
  have hkeysuniv : ∀ d ∈ graphKeys g, d ∈ univIds g := by
    intro d hd
    rw [univIds, List.mem_append]
    exact Or.inl hd
  have hinv0 : OrderInv g [] ([], []) := by
    refine ⟨by simp, by simp, List.Pairwise.nil, by simp⟩
  have hfold := visitFold_orderInv g ((univIds g).length + 1) []
    (visitFuel_orderInv g hnd hcl hac ((univIds g).length + 1)) (graphKeys g)
    ([], []) hmeasure hkeysuniv
    (fun d _ x hx => absurd hx (List.not_mem_nil x))
    (fun x hx => absurd hx (List.not_mem_nil x)) hinv0
  have hvisits := (visitFold_visits g ((univIds g).length + 1) hFuel1
    (graphKeys g) ([], [])).2
  have htopfold : topologicalSort g = ((graphKeys g).foldl
      (fun acc d => visitFuel g ((univIds g).length + 1) d acc) ([], [])).2 :=
    rfl
  intro nd hndg d hd
  obtain ⟨k0, k1, k2, k3⟩ := hfold
  have hu : nd.id ∈ graphKeys g := by
    rw [graphKeys, List.mem_map]
    exact ⟨nd, hndg, rfl⟩
  have huvis := hvisits nd.id hu
  have huo : nd.id ∈ ((graphKeys g).foldl
      (fun acc d => visitFuel g ((univIds g).length + 1) d acc) ([], [])).2 :=
    k1 nd.id huvis (List.not_mem_nil _) hu
  have hedge : edgeRel g nd.id d := ⟨nd, hndg, rfl, hd⟩
  have hdo := k3 nd.id huo d hedge
  have hdneu : d ≠ nd.id := by
    intro heq
    rw [heq] at hedge
    exact hac nd.id (Relation.TransGen.single hedge)
  rw [htopfold]
  refine ⟨hdo, huo, ?_⟩
  have hlt1 := List.indexOf_lt_length.mpr hdo
  have hlt2 := List.indexOf_lt_length.mpr huo
  have hod := List.getElem_indexOf hlt1
  have hou := List.getElem_indexOf hlt2
  rcases Nat.lt_trichotomy
    (((graphKeys g).foldl
      (fun acc d => visitFuel g ((univIds g).length + 1) d acc)
      ([], [])).2.indexOf d)
    (((graphKeys g).foldl
      (fun acc d => visitFuel g ((univIds g).length + 1) d acc)
      ([], [])).2.indexOf nd.id) with h | h | h
  · exact h
  · exact absurd ((List.indexOf_inj hdo huo).mp h) hdneu
  · exfalso
    have hpair := List.pairwise_iff_getElem.mp k2 _ _ hlt2 hlt1 h
    rw [hou, hod] at hpair
    exact hpair hedge

theorem topologicalSort_deps_before_witness :
    (graphKeys [⟨1, []⟩]).Nodup ∧ DepClosed [⟨1, []⟩] ∧
    AcyclicDep [⟨1, []⟩] ∧
    (∀ nd ∈ ([⟨1, []⟩] : DepGraph), ∀ d ∈ nd.dependsOn,
      d ∈ topologicalSort [⟨1, []⟩] ∧ nd.id ∈ topologicalSort [⟨1, []⟩] ∧
      (topologicalSort [⟨1, []⟩]).indexOf d
        < (topologicalSort [⟨1, []⟩]).indexOf nd.id) := by
  have h1 : (graphKeys [⟨1, []⟩]).Nodup := by decide
  have h2 : DepClosed [⟨1, []⟩] := by
    intro n hn d hd
    rcases List.mem_singleton.mp hn with rfl
    exact absurd hd (List.not_mem_nil d)
  have hnoedge : ∀ u v : ℤ, ¬ edgeRel [⟨1, []⟩] u v := by
    rintro u v ⟨n, hn, _, hdep⟩
    rcases List.mem_singleton.mp hn with rfl
    exact absurd hdep (List.not_mem_nil _)
  have h3 : AcyclicDep [⟨1, []⟩] := by
    intro u h
    cases h with
    | single h' => exact hnoedge _ _ h'
    | tail h' e => exact hnoedge _ _ e
  exact ⟨h1, h2, h3, topologicalSort_deps_before [⟨1, []⟩] h1 h2 h3⟩

theorem jaccardSimilarity_props_witness :
    Finset.Nonempty ({1} : Finset ℕ) ∧ Finset.Nonempty ({2} : Finset ℕ) ∧
    ({1} : Finset ℕ) ∩ {2} = ∅ ∧
    jaccardSimilarity ({1} : Finset ℕ) {1} = 1 ∧
    jaccardSimilarity ({1} : Finset ℕ) {2} = 0 :=
  ⟨⟨1, by simp⟩, ⟨2, by simp⟩, by decide,
   (jaccardSimilarity_props).2.2.1 {1} ⟨1, by simp⟩,
   (jaccardSimilarity_props).2.2.2 {1} {2} ⟨1, by simp⟩ ⟨2, by simp⟩ (by decide)⟩

end Maker
